import Mathlib

/-!
Shallow embedding of the Arna agent core (`src/core/agent_core.py`):
the `Task` tree with its status state machine, `TaskPlanner`'s
deterministic fallback decomposition, `MemoryManager`'s layered
key/value store with history, and `ExecutionEngine.execute_task`'s
recursive tree execution.  Python's in-place mutation is rendered as
explicit state passing; `time.time()` and `uuid.uuid4()` are threaded
in as explicit `now`/`fresh` parameters; leaf step execution (which
goes through an external LLM service) is an oracle parameter.
-/

namespace Arna

/-- `TaskStatus` enum from `agent_core.py`. -/
inductive TaskStatus where
  | pending
  | planning
  | in_progress
  | completed
  | failed
  | cancelled
deriving DecidableEq, Repr

/-- The `.value` string of each enum member. -/
def TaskStatus.value : TaskStatus → String
  | .pending => "pending"
  | .planning => "planning"
  | .in_progress => "in_progress"
  | .completed => "completed"
  | .failed => "failed"
  | .cancelled => "cancelled"

/-- Python `TaskStatus(s)`: succeeds exactly on the six member values,
raises `ValueError` otherwise (modelled as `none`). -/
def TaskStatus.ofValue? : String → Option TaskStatus
  | "pending" => some .pending
  | "planning" => some .planning
  | "in_progress" => some .in_progress
  | "completed" => some .completed
  | "failed" => some .failed
  | "cancelled" => some .cancelled
  | _ => none

/-- Values storable in memory / metadata (`Any` in the Python source). -/
inductive Value where
  | null
  | str (s : String)
  | num (n : Nat)
  | flag (b : Bool)
deriving DecidableEq, Repr

/-- Python `dict` keyed by strings, as an association list
(first binding wins on lookup; insertion replaces in place). -/
abbrev Dict (V : Type) := List (String × V)

def dictLookup {V : Type} : Dict V → String → Option V
  | [], _ => none
  | (k, v) :: rest, key => if k = key then some v else dictLookup rest key

/-- `d[key] = v`: replaces the existing binding in place, else appends. -/
def dictInsert {V : Type} : Dict V → String → V → Dict V
  | [], key, v => [(key, v)]
  | (k, w) :: rest, key, v =>
      if k = key then (k, v) :: rest else (k, w) :: dictInsert rest key v

/-- `del d[key]` (no-op when absent, mirroring the guarded deletes in
the source).  Python dicts hold at most one binding per key; removing
every binding for `key` coincides with `del` on such states. -/
def dictErase {V : Type} : Dict V → String → Dict V
  | [], _ => []
  | (k, w) :: rest, key =>
      if k = key then dictErase rest key else (k, w) :: dictErase rest key

/-- The `Task` dataclass: a tree node.  Timestamps are abstracted to `Nat`. -/
inductive Task where
  | mk (id : String) (name : String) (description : String)
      (status : TaskStatus) (parent_id : Option String)
      (subtasks : List Task)
      (created_at : Nat) (updated_at : Nat) (completed_at : Option Nat)
      (metadata : Dict Value)
deriving Repr

def Task.id : Task → String
  | .mk i _ _ _ _ _ _ _ _ _ => i

def Task.name : Task → String
  | .mk _ n _ _ _ _ _ _ _ _ => n

def Task.description : Task → String
  | .mk _ _ d _ _ _ _ _ _ _ => d

def Task.status : Task → TaskStatus
  | .mk _ _ _ s _ _ _ _ _ _ => s

def Task.parent_id : Task → Option String
  | .mk _ _ _ _ p _ _ _ _ _ => p

def Task.subtasks : Task → List Task
  | .mk _ _ _ _ _ subs _ _ _ _ => subs

def Task.created_at : Task → Nat
  | .mk _ _ _ _ _ _ c _ _ _ => c

def Task.updated_at : Task → Nat
  | .mk _ _ _ _ _ _ _ u _ _ => u

def Task.completed_at : Task → Option Nat
  | .mk _ _ _ _ _ _ _ _ comp _ => comp

def Task.metadata : Task → Dict Value
  | .mk _ _ _ _ _ _ _ _ _ md => md

/-- `Task.update_status`: sets `status` and `updated_at`; additionally
sets `completed_at` when the new status is COMPLETED (both `time.time()`
calls in the source are modelled by the single instant `now`). -/
def Task.update_status : Task → TaskStatus → Nat → Task
  | .mk i n d _ p subs c _ comp md, s, now =>
      .mk i n d s p subs c now
        (if s = TaskStatus.completed then some now else comp) md

/-- `Task.add_subtask`: creates a child (fresh uuid `fid`, status PENDING,
parent id set to self) and appends it; returns `(child, updated parent)`. -/
def Task.add_subtask : Task → String → Nat → String → String → Task × Task
  | .mk i n d s p subs c u comp md, fid, now, sname, sdesc =>
      let subtask := Task.mk fid sname sdesc TaskStatus.pending (some i) [] now now none []
      (subtask, .mk i n d s p (subs ++ [subtask]) c u comp md)

/-- Functional counterpart of Python's in-place mutation of the children:
the parent node with its `subtasks` list replaced. -/
def Task.withSubtasks : Task → List Task → Task
  | .mk i n d s p _ c u comp md, subs => .mk i n d s p subs c u comp md

/-- Functional counterpart of `task.metadata[key] = value`. -/
def Task.withMetadata : Task → Dict Value → Task
  | .mk i n d s p subs c u comp _, md => .mk i n d s p subs c u comp md

/-- The dict shape produced by `Task.to_dict` and consumed by
`Task.from_dict`.  `none` in a scalar field models a missing key; for
`parent_id` and `completed_at`, whose `data.get(...)` default is `None`,
a missing key and a stored `null` are observably the same, so `none`
covers both.  A missing `"subtasks"` key and a stored empty list both
read back as `[]` (`data.get("subtasks", [])`), so `subtasks` is a bare
list. -/
inductive TaskRecord where
  | mk (id : Option String) (name : Option String) (description : Option String)
      (status : Option String) (parent_id : Option String)
      (subtasks : List TaskRecord)
      (created_at : Option Nat) (updated_at : Option Nat) (completed_at : Option Nat)
      (metadata : Option (Dict Value))
deriving Repr

def TaskRecord.status : TaskRecord → Option String
  | .mk _ _ _ st _ _ _ _ _ _ => st

def TaskRecord.subtasks : TaskRecord → List TaskRecord
  | .mk _ _ _ _ _ subs _ _ _ _ => subs

mutual

/-- `Task.to_dict`: recursive structural serialization. -/
def Task.to_dict : Task → TaskRecord
  | .mk i n d s p subs c u comp md =>
      TaskRecord.mk (some i) (some n) (some d) (some s.value) p
        (to_dict_list subs) (some c) (some u) comp (some md)

/-- The `[subtask.to_dict() for subtask in self.subtasks]` comprehension. -/
def to_dict_list : List Task → List TaskRecord
  | [] => []
  | t :: ts => Task.to_dict t :: to_dict_list ts

end

mutual

/-- `Task.from_dict`: deserialization.  Missing fields fall back to
defaults (`fresh` models the `uuid.uuid4()` id default, `now` the
`time.time()` timestamp default); an invalid status string raises
`ValueError`, modelled as `Except.error`. -/
def Task.from_dict (fresh : String) (now : Nat) : TaskRecord → Except String Task
  | .mk i n d st p subs c u comp md =>
      match TaskStatus.ofValue? (st.getD "pending") with
      | none => Except.error ((st.getD "pending") ++ " is not a valid TaskStatus")
      | some status => do
          let children ← from_dict_list fresh now subs
          pure (Task.mk (i.getD fresh) (n.getD "") (d.getD "") status p children
            (c.getD now) (u.getD now) comp (md.getD []))

/-- The `for subtask_data in data.get("subtasks", [])` loop: children are
deserialized and appended in record order. -/
def from_dict_list (fresh : String) (now : Nat) :
    List TaskRecord → Except String (List Task)
  | [] => pure []
  | r :: rs => do
      let t ← Task.from_dict fresh now r
      let ts ← from_dict_list fresh now rs
      pure (t :: ts)

end

/-- `MemoryManager`: short-term and long-term key/value stores plus the
append-only task history. -/
structure MemoryManager where
  short_term_memory : Dict Value
  long_term_memory : Dict Value
  task_history : List TaskRecord
deriving Repr

/-- Fresh `MemoryManager()`. -/
def MemoryManager.init : MemoryManager := ⟨[], [], []⟩

/-- `remember(key, value, long_term)`: always written to short-term,
additionally to long-term when `long_term` is true. -/
def MemoryManager.remember (m : MemoryManager) (key : String) (value : Value)
    (long_term : Bool) : MemoryManager :=
  { m with
    short_term_memory := dictInsert m.short_term_memory key value
    long_term_memory :=
      if long_term then dictInsert m.long_term_memory key value
      else m.long_term_memory }

/-- `recall(key, default)`: short-term first; on miss, long-term, copying
a hit into short-term (promotion); else the default.  Returns the value
together with the (possibly promoted) state. -/
def MemoryManager.recall (m : MemoryManager) (key : String) (default : Value) :
    Value × MemoryManager :=
  match dictLookup m.short_term_memory key with
  | some v => (v, m)
  | none =>
      match dictLookup m.long_term_memory key with
      | some v =>
          (v, { m with short_term_memory := dictInsert m.short_term_memory key v })
      | none => (default, m)

/-- `forget(key, long_term)`: removes from short-term; additionally from
long-term when `long_term` is true. -/
def MemoryManager.forget (m : MemoryManager) (key : String) (long_term : Bool) :
    MemoryManager :=
  { m with
    short_term_memory := dictErase m.short_term_memory key
    long_term_memory :=
      if long_term then dictErase m.long_term_memory key else m.long_term_memory }

/-- `clear_short_term_memory()`. -/
def MemoryManager.clear_short_term_memory (m : MemoryManager) : MemoryManager :=
  { m with short_term_memory := [] }

/-- `add_task_to_history(task)`: appends `task.to_dict()`. -/
def MemoryManager.add_task_to_history (m : MemoryManager) (task : Task) :
    MemoryManager :=
  { m with task_history := m.task_history ++ [task.to_dict] }

/-- `get_task_history(limit)`: the full history when `limit is None`,
otherwise the Python slice `task_history[-limit:]` — for `limit ≥ 1` the
last `limit` entries, but for `limit = 0` the `-0 = 0` start index makes
it the whole list. -/
def MemoryManager.get_task_history (m : MemoryManager) (limit : Option Nat) :
    List TaskRecord :=
  match limit with
  | none => m.task_history
  | some l =>
      if l = 0 then m.task_history
      else m.task_history.drop (m.task_history.length - l)

/-- `sub` occurs as a contiguous run in `cs`: tried at every start
position.  (An empty `sub` occurs everywhere, as with Python `in`.) -/
def subOccurs (cs sub : List Char) : Bool :=
  match cs with
  | [] => sub.isEmpty
  | _ :: rest => sub.isPrefixOf cs || subOccurs rest sub

/-- Python's `sub in s` substring test. -/
def strContains (s sub : String) : Bool := subOccurs s.data sub.data

/-- `TaskPlanner.create_task(name, description)`: a fresh PENDING task. -/
def TaskPlanner.create_task (name description : String) (fresh : String)
    (now : Nat) : Task :=
  Task.mk fresh name description TaskStatus.pending none [] now now none []

/-- The repeated `task.add_subtask(...)` calls of one branch of
`_generate_basic_subtasks`, consuming fresh ids `fresh 0`, `fresh 1`, …
in order. -/
def Task.add_subtasks (t : Task) (fresh : Nat → String) (now : Nat)
    (items : List (String × String)) : Task :=
  (items.foldl
    (fun (acc : Task × Nat) it =>
      ((acc.1.add_subtask (fresh acc.2) now it.1 it.2).2, acc.2 + 1))
    (t, 0)).1

/-- `TaskPlanner._generate_basic_subtasks`: the deterministic rule table,
keyed by substring match on the (Japanese) task name.  `complexity_level`
is accepted but unused, as in the source. -/
def TaskPlanner.generate_basic_subtasks (fresh : Nat → String) (now : Nat)
    (task : Task) (complexity_level : Nat) : Task :=
  if strContains task.name "開発" || strContains task.name "実装" then
    task.add_subtasks fresh now
      [("要件分析", "機能の要件を分析し、明確にする"),
       ("設計", "機能の設計を行う"),
       ("実装", "コードを実装する"),
       ("テスト", "機能をテストする"),
       ("文書化", "機能の使用方法を文書化する")]
  else if strContains task.name "テスト" then
    task.add_subtasks fresh now
      [("テスト計画", "テスト計画を作成する"),
       ("テストケース作成", "テストケースを作成する"),
       ("テスト実行", "テストを実行する"),
       ("バグ修正", "発見されたバグを修正する")]
  else if strContains task.name "設計" then
    task.add_subtasks fresh now
      [("要件確認", "設計に必要な要件を確認する"),
       ("アーキテクチャ設計", "全体アーキテクチャを設計する"),
       ("詳細設計", "詳細設計を行う"),
       ("レビュー", "設計のレビューを行う")]
  else
    task.add_subtasks fresh now
      [("計画", task.name ++ "の計画を立てる"),
       ("実行", task.name ++ "を実行する"),
       ("検証", task.name ++ "の結果を検証する")]

/-- `TaskPlanner.plan_task` with no LLM service configured
(`llm_service=None`): PLANNING, then the deterministic fallback
decomposition, then IN_PROGRESS. -/
def TaskPlanner.plan_task (fresh : Nat → String) (task : Task)
    (complexity_level : Nat) (now : Nat) : Task :=
  let t1 := task.update_status TaskStatus.planning now
  let t2 := TaskPlanner.generate_basic_subtasks fresh now t1 complexity_level
  t2.update_status TaskStatus.in_progress now

/-- The leaf step-execution procedure (`_execute_with_llm` /
`_execute_basic`), abstracted as an oracle: given the task and the
memory state it returns the memory state at exit together with either a
success boolean or a raised exception's text.  Mutations made before a
raise persist, as in Python. -/
abbrev LeafExec := Task → MemoryManager → MemoryManager × Except String Bool

theorem Task.subtasks_update_status (t : Task) (s : TaskStatus) (now : Nat) :
    (t.update_status s now).subtasks = t.subtasks := by
  cases t <;> simp [Task.update_status, Task.subtasks]

theorem Task.sizeOf_subtasks_lt (t : Task) : sizeOf t.subtasks < sizeOf t := by
  cases t <;> simp [Task.subtasks] <;> omega

mutual

/-- `ExecutionEngine.execute_task`, in state-passing form: returns the
success boolean, the executed task (the source mutates it in place), and
the updated memory.  Exceptions from the leaf procedure are caught here
and never re-raised (the function is total and returns a triple). -/
def ExecutionEngine.execute_task (leaf : LeafExec) (now : Nat) :
    Task → MemoryManager → Bool × Task × MemoryManager
  | t, mem =>
      let t1 := t.update_status TaskStatus.in_progress now
      match h : t1.subtasks with
      | sub0 :: rest =>
          -- subtasks present: execute them all, then aggregate
          let res := execute_subtasks leaf now (sub0 :: rest) mem
          let all_success := res.1
          let t2 := (t1.withSubtasks res.2.1).update_status
            (if all_success then TaskStatus.completed else TaskStatus.failed) now
          (all_success, t2, res.2.2)
      | [] =>
          -- leaf: run the step-execution procedure inside try/except
          match leaf t1 mem with
          | (mem2, Except.ok success) =>
              let t2 := t1.update_status
                (if success then TaskStatus.completed else TaskStatus.failed) now
              (success, t2, mem2.add_task_to_history t2)
          | (mem2, Except.error e) =>
              let t2 := t1.update_status TaskStatus.failed now
              let t3 := t2.withMetadata (dictInsert t2.metadata "error" (Value.str e))
              (false, t3, mem2.add_task_to_history t3)
termination_by t mem => sizeOf t
decreasing_by
  rw [← h, Task.subtasks_update_status]
  exact Task.sizeOf_subtasks_lt t

/-- The `for subtask in task.subtasks` loop: every child is executed (no
short-circuit); the flag starting `True` is and-ed with each child's
result; children and memory are threaded left to right. -/
def execute_subtasks (leaf : LeafExec) (now : Nat) :
    List Task → MemoryManager → Bool × List Task × MemoryManager
  | [], mem => (true, [], mem)
  | s :: rest, mem =>
      let r := ExecutionEngine.execute_task leaf now s mem
      let rs := execute_subtasks leaf now rest r.2.2
      (r.1 && rs.1, r.2.1 :: rs.2.1, rs.2.2)
termination_by ts mem => sizeOf ts
decreasing_by
  all_goals simp
  all_goals omega

end

/-- One step of `_execute_with_llm`'s execution loop (`for i, step in
enumerate(steps)`): a registered, truthy tool name is invoked and its
result remembered under `step_<i>_result`; otherwise a warning is logged
and the step is skipped. -/
structure Step where
  step : Option String
  tool : Option String
  parameters : Dict Value
deriving Repr

/-- The tool registry: name → callable. -/
abbrev ToolRegistry := List (String × (Dict Value → Value))

def lookupTool : ToolRegistry → String → Option (Dict Value → Value)
  | [], _ => none
  | (k, f) :: rest, key => if k = key then some f else lookupTool rest key

/-- The memory key `f"step_{i}_result"`. -/
def step_key (i : Nat) : String := "step_" ++ toString i ++ "_result"

/-- Body of one iteration of the step loop. -/
def run_step (registry : ToolRegistry) (mem : MemoryManager) (i : Nat)
    (st : Step) : MemoryManager :=
  match st.tool with
  | some tool_name =>
      -- `if tool_name and tool_name in self.tool_registry`
      if tool_name ≠ "" then
        match lookupTool registry tool_name with
        | some tool_func =>
            mem.remember (step_key i) (tool_func st.parameters) false
        | none => mem  -- logged warning, step skipped
      else mem
  | none => mem

/-- The whole step loop, starting at index `i`. -/
def execute_steps_from (registry : ToolRegistry) (i : Nat) :
    List Step → MemoryManager → MemoryManager
  | [], mem => mem
  | st :: rest, mem =>
      execute_steps_from registry (i + 1) rest (run_step registry mem i st)

/-- The LLM collaborator of `_execute_with_llm`, abstracted: the parsed
step plan (`none` models a non-list `parse_json_response` result) and
the raw text of the evaluation reply. -/
structure LLMOracle where
  planSteps : Option (List Step)
  evalAnswer : String

/-- `"yes" in evaluation.strip().lower()`. -/
def answerYes (s : String) : Bool := strContains s.trim.toLower "yes"

/-- `ExecutionEngine._execute_with_llm` with the two service calls
replaced by the oracle: runs every step, then maps the evaluation reply
to the success boolean.  A non-list step plan returns `false`. -/
def ExecutionEngine.execute_with_llm (registry : ToolRegistry)
    (llm : LLMOracle) (mem : MemoryManager) : Bool × MemoryManager :=
  match llm.planSteps with
  | none => (false, mem)
  | some steps =>
      let mem2 := execute_steps_from registry 0 steps mem
      (answerYes llm.evalAnswer, mem2)

/-- A sequence of `update_status` calls applied in order (the reachable
states of the status state machine). -/
def Task.applyUpdates (t : Task) (us : List (TaskStatus × Nat)) : Task :=
  us.foldl (fun acc u => acc.update_status u.1 u.2) t

/-- The record with every key missing. -/
def emptyRecord : TaskRecord :=
  TaskRecord.mk none none none none none [] none none none none

mutual

/-- Every status string in the record tree (with the `"pending"` default
for a missing key) is one of the six enum values. -/
def TaskRecord.statuses_valid : TaskRecord → Bool
  | .mk _ _ _ st _ subs _ _ _ _ =>
      (TaskStatus.ofValue? (st.getD "pending")).isSome && statuses_valid_list subs

def statuses_valid_list : List TaskRecord → Bool
  | [] => true
  | r :: rs => TaskRecord.statuses_valid r && statuses_valid_list rs

end

/-! ### Supporting lemmas -/

theorem dictLookup_insert_self {V : Type} (d : Dict V) (k : String) (v : V) :
    dictLookup (dictInsert d k v) k = some v := by
  induction d with
  | nil => simp [dictInsert, dictLookup]
  | cons kv rest ih =>
      by_cases h : kv.1 = k <;> simp [dictInsert, dictLookup, h, ih]

theorem dictLookup_erase_self {V : Type} (d : Dict V) (k : String) :
    dictLookup (dictErase d k) k = none := by
  induction d with
  | nil => simp [dictErase, dictLookup]
  | cons kv rest ih =>
      by_cases h : kv.1 = k <;> simp [dictErase, dictLookup, h, ih]

theorem Task.status_update_status (t : Task) (s : TaskStatus) (now : Nat) :
    (t.update_status s now).status = s := by
  cases t <;> rfl

theorem Task.updated_at_update_status (t : Task) (s : TaskStatus) (now : Nat) :
    (t.update_status s now).updated_at = now := by
  cases t <;> rfl

theorem Task.completed_at_update_status (t : Task) (s : TaskStatus) (now : Nat) :
    (t.update_status s now).completed_at =
      if s = TaskStatus.completed then some now else t.completed_at := by
  cases t <;> rfl

theorem Task.id_update_status (t : Task) (s : TaskStatus) (now : Nat) :
    (t.update_status s now).id = t.id := by
  cases t <;> rfl

theorem Task.name_update_status (t : Task) (s : TaskStatus) (now : Nat) :
    (t.update_status s now).name = t.name := by
  cases t <;> rfl

theorem Task.metadata_update_status (t : Task) (s : TaskStatus) (now : Nat) :
    (t.update_status s now).metadata = t.metadata := by
  cases t <;> rfl

theorem Task.status_withMetadata (t : Task) (md : Dict Value) :
    (t.withMetadata md).status = t.status := by
  cases t <;> rfl

theorem Task.metadata_withMetadata (t : Task) (md : Dict Value) :
    (t.withMetadata md).metadata = md := by
  cases t <;> rfl

theorem Task.subtasks_withMetadata (t : Task) (md : Dict Value) :
    (t.withMetadata md).subtasks = t.subtasks := by
  cases t <;> rfl

theorem Task.id_withMetadata (t : Task) (md : Dict Value) :
    (t.withMetadata md).id = t.id := by
  cases t <;> rfl

theorem Task.subtasks_withSubtasks (t : Task) (subs : List Task) :
    (t.withSubtasks subs).subtasks = subs := by
  cases t <;> rfl

theorem Task.status_withSubtasks (t : Task) (subs : List Task) :
    (t.withSubtasks subs).status = t.status := by
  cases t <;> rfl

theorem Task.id_withSubtasks (t : Task) (subs : List Task) :
    (t.withSubtasks subs).id = t.id := by
  cases t <;> rfl

/-- The guarded `completed_at` invariant is preserved by any single
`update_status` call. -/
theorem Task.completed_invariant_step (t : Task) (s : TaskStatus) (now : Nat)
    (h : t.status = TaskStatus.completed → t.completed_at ≠ none) :
    (t.update_status s now).status = TaskStatus.completed →
      (t.update_status s now).completed_at ≠ none := by
  intro hs
  rw [Task.status_update_status] at hs
  rw [Task.completed_at_update_status, hs]
  simp

theorem Task.completed_invariant_applyUpdates (t : Task)
    (us : List (TaskStatus × Nat))
    (h : t.status = TaskStatus.completed → t.completed_at ≠ none) :
    (t.applyUpdates us).status = TaskStatus.completed →
      (t.applyUpdates us).completed_at ≠ none := by
  induction us generalizing t with
  | nil => exact h
  | cons u rest ih =>
      exact ih (t.update_status u.1 u.2) (t.completed_invariant_step u.1 u.2 h)

/-! ### Claims -/

/-- **C5** (confirmed).  `recall` returns the short-term value when the
key is present there; on a short-term miss with a long-term hit it
returns the long-term value after copying it into short-term (promotion)
without touching long-term; on a total miss it returns the default.
After `remember(k, v, long_term := true)` and a short-term-only
`forget(k)`, `recall(k)` still returns `v`; `clear_short_term_memory`
leaves the long-term store untouched. -/
theorem claim5_memory_promotion :
    (∀ (m : MemoryManager) (k : String) (d v : Value),
        dictLookup m.short_term_memory k = some v →
        m.recall k d = (v, m)) ∧
    (∀ (m : MemoryManager) (k : String) (d v : Value),
        dictLookup m.short_term_memory k = none →
        dictLookup m.long_term_memory k = some v →
        (m.recall k d).1 = v ∧
        dictLookup (m.recall k d).2.short_term_memory k = some v ∧
        (m.recall k d).2.long_term_memory = m.long_term_memory) ∧
    (∀ (m : MemoryManager) (k : String) (d : Value),
        dictLookup m.short_term_memory k = none →
        dictLookup m.long_term_memory k = none →
        m.recall k d = (d, m)) ∧
    (∀ (m : MemoryManager) (k : String) (v d : Value),
        (((m.remember k v true).forget k false).recall k d).1 = v) ∧
    (∀ (m : MemoryManager),
        m.clear_short_term_memory.long_term_memory = m.long_term_memory) := by
  refine ⟨?_, ?_, ?_, ?_, ?_⟩
  · intro m k d v h
    simp [MemoryManager.recall, h]
  · intro m k d v hs hl
    simp [MemoryManager.recall, hs, hl, dictLookup_insert_self]
  · intro m k d hs hl
    simp [MemoryManager.recall, hs, hl]
  · intro m k v d
    simp [MemoryManager.remember, MemoryManager.forget, MemoryManager.recall,
      dictLookup_erase_self, dictLookup_insert_self]
  · intro m
    rfl

/-- Witness for C5 at concrete states. -/
theorem claim5_memory_promotion_witness :
    MemoryManager.recall ⟨[("k", Value.num 1)], [], []⟩ "k" Value.null =
      (Value.num 1, ⟨[("k", Value.num 1)], [], []⟩) ∧
    (MemoryManager.recall ⟨[], [("k", Value.num 2)], []⟩ "k" Value.null).1 =
      Value.num 2 ∧
    MemoryManager.recall ⟨[], [], []⟩ "k" Value.null =
      (Value.null, ⟨[], [], []⟩) ∧
    ((((MemoryManager.init.remember "k" (Value.str "v") true).forget "k"
        false).recall "k" Value.null)).1 = Value.str "v" := by
  refine ⟨claim5_memory_promotion.1 _ "k" _ _ (by decide),
    (claim5_memory_promotion.2.1 _ "k" Value.null _ (by decide) (by decide)).1,
    claim5_memory_promotion.2.2.1 _ "k" _ (by decide) (by decide),
    claim5_memory_promotion.2.2.2.1 MemoryManager.init "k" _ _⟩

/-- **C6 counterexample.**  With a one-entry history,
`get_task_history(limit := 0)` returns that entry rather than zero
entries: the Python slice `history[-0:]` is the whole list. -/
theorem claim6_counterexample :
    ¬ (MemoryManager.get_task_history ⟨[], [], [emptyRecord]⟩
        (some 0)).length = 0 := by
  decide

/-- **C6** (corrected).  `get_task_history` with no limit returns the
full history; for `limit = n ≥ 1` it returns the most recent `n`
entries — exactly `n` of them when the history holds at least `n` —
while `limit = 0` returns the full history (negative-slice artifact),
not zero entries. -/
theorem claim6_history_limit :
    (∀ (m : MemoryManager), m.get_task_history none = m.task_history) ∧
    (∀ (m : MemoryManager) (n : Nat), 1 ≤ n →
        m.get_task_history (some n) =
          m.task_history.drop (m.task_history.length - n)) ∧
    (∀ (m : MemoryManager) (n : Nat), 1 ≤ n → n ≤ m.task_history.length →
        (m.get_task_history (some n)).length = n) ∧
    (∀ (m : MemoryManager), m.get_task_history (some 0) = m.task_history) := by
  refine ⟨fun m => rfl, ?_, ?_, fun m => rfl⟩
  · intro m n hn
    have : n ≠ 0 := by omega
    simp [MemoryManager.get_task_history, this]
  · intro m n hn hlen
    have : n ≠ 0 := by omega
    simp [MemoryManager.get_task_history, this]
    omega

/-- Witness for C6 at a concrete two-entry history. -/
theorem claim6_history_limit_witness :
    MemoryManager.get_task_history ⟨[], [], [emptyRecord, emptyRecord]⟩
        (some 1) =
      [emptyRecord] ∧
    (MemoryManager.get_task_history ⟨[], [], [emptyRecord, emptyRecord]⟩
        (some 1)).length = 1 := by
  constructor
  · have h := claim6_history_limit.2.1 ⟨[], [], [emptyRecord, emptyRecord]⟩ 1
      (by decide)
    simpa using h
  · exact claim6_history_limit.2.2.1 ⟨[], [], [emptyRecord, emptyRecord]⟩ 1
      (by decide) (by decide)

/-- **C7 counterexample.**  `completed_at` is never cleared: updating a
completed task to FAILED leaves `completed_at` set while the status is
not COMPLETED, so "completed_at non-null exactly when status is
COMPLETED" fails on this reachable state. -/
theorem claim7_counterexample :
    ((TaskPlanner.create_task "t" "d" "id0" 0).applyUpdates
        [(TaskStatus.completed, 1), (TaskStatus.failed, 2)]).completed_at =
      some 1 ∧
    ((TaskPlanner.create_task "t" "d" "id0" 0).applyUpdates
        [(TaskStatus.completed, 1), (TaskStatus.failed, 2)]).status ≠
      TaskStatus.completed := by
  constructor <;> decide

/-- **C7** (corrected).  `update_status s now` always sets the status to
`s` and `updated_at` to `now`, and assigns `completed_at` iff
`s = COMPLETED` (otherwise it is left unchanged); along any sequence of
`update_status` calls from a fresh task, a state with status COMPLETED
has `completed_at` non-null — but the converse direction of the claimed
invariant fails, since `completed_at` persists after a later transition
away from COMPLETED. -/
theorem claim7_completed_at :
    (∀ (t : Task) (s : TaskStatus) (now : Nat),
        (t.update_status s now).status = s ∧
        (t.update_status s now).updated_at = now ∧
        (t.update_status s now).completed_at =
          (if s = TaskStatus.completed then some now else t.completed_at)) ∧
    (∀ (name desc fresh : String) (now0 : Nat) (us : List (TaskStatus × Nat)),
        ((TaskPlanner.create_task name desc fresh now0).applyUpdates us).status =
            TaskStatus.completed →
          ((TaskPlanner.create_task name desc fresh now0).applyUpdates
              us).completed_at ≠ none) := by
  constructor
  · intro t s now
    exact ⟨t.status_update_status s now, t.updated_at_update_status s now,
      t.completed_at_update_status s now⟩
  · intro name desc fresh now0 us
    exact Task.completed_invariant_applyUpdates _ us (by intro h; cases h)

/-- Witness for C7: a fresh task updated to COMPLETED at time 5. -/
theorem claim7_completed_at_witness :
    ((TaskPlanner.create_task "t" "d" "id0" 0).update_status
        TaskStatus.completed 5).status = TaskStatus.completed ∧
    ((TaskPlanner.create_task "t" "d" "id0" 0).update_status
        TaskStatus.completed 5).updated_at = 5 ∧
    ((TaskPlanner.create_task "t" "d" "id0" 0).applyUpdates
        [(TaskStatus.completed, 5)]).completed_at ≠ none := by
  refine ⟨(claim7_completed_at.1 _ _ _).1, (claim7_completed_at.1 _ _ _).2.1, ?_⟩
  exact claim7_completed_at.2 "t" "d" "id0" 0 [(TaskStatus.completed, 5)]
    (by decide)

/-- **C4 counterexample.**  The rule table keys on the Japanese
substrings 開発/実装/テスト/設計; the English name "Implement widget"
matches none of them, so `plan_task` falls to the generic branch and
appends the three subtasks 計画/実行/検証 — not the five-step
development decomposition the claim states. -/
theorem claim4_counterexample :
    (TaskPlanner.plan_task (fun i => toString i)
        (TaskPlanner.create_task "Implement widget" "w" "root" 0) 3
        1).subtasks.map Task.name = ["計画", "実行", "検証"] ∧
    (TaskPlanner.plan_task (fun i => toString i)
        (TaskPlanner.create_task "Implement widget" "w" "root" 0) 3
        1).subtasks.map Task.name ≠
      ["要件分析", "設計", "実装", "テスト", "文書化"] := by
  constructor <;> decide

/-- **C4** (corrected).  Without an LLM service, `plan_task` on a task
whose name contains the substring 開発 (development) or 実装
(implementation) appends exactly the five subtasks 要件分析
(requirements analysis), 設計 (design), 実装 (implementation), テスト
(testing), 文書化 (documentation), in that order with these exact
names/descriptions, and leaves the task IN_PROGRESS; the complexity
level is irrelevant to the fallback table. -/
theorem claim4_planner_heuristic :
    ∀ (name desc id0 : String) (now0 cl now : Nat) (fresh : Nat → String),
      (strContains name "開発" || strContains name "実装") = true →
      (TaskPlanner.plan_task fresh
          (TaskPlanner.create_task name desc id0 now0) cl now).subtasks.map
          (fun s => (s.name, s.description)) =
        [("要件分析", "機能の要件を分析し、明確にする"),
         ("設計", "機能の設計を行う"),
         ("実装", "コードを実装する"),
         ("テスト", "機能をテストする"),
         ("文書化", "機能の使用方法を文書化する")] ∧
      (TaskPlanner.plan_task fresh
          (TaskPlanner.create_task name desc id0 now0) cl now).status =
        TaskStatus.in_progress := by
  intro name desc id0 now0 cl now fresh h
  simp [TaskPlanner.plan_task, TaskPlanner.create_task,
    TaskPlanner.generate_basic_subtasks, Task.update_status, Task.name, h,
    Task.add_subtasks, Task.add_subtask, Task.subtasks, Task.status,
    Task.name, Task.description]

/-- Witness for C4 on a name containing 実装. -/
theorem claim4_planner_heuristic_witness :
    (TaskPlanner.plan_task (fun i => toString i)
        (TaskPlanner.create_task "ウィジェットを実装" "w" "root" 0) 3
        1).subtasks.map (fun s => (s.name, s.description)) =
      [("要件分析", "機能の要件を分析し、明確にする"),
       ("設計", "機能の設計を行う"),
       ("実装", "コードを実装する"),
       ("テスト", "機能をテストする"),
       ("文書化", "機能の使用方法を文書化する")] ∧
    (TaskPlanner.plan_task (fun i => toString i)
        (TaskPlanner.create_task "ウィジェットを実装" "w" "root" 0) 3
        1).status = TaskStatus.in_progress :=
  claim4_planner_heuristic "ウィジェットを実装" "w" "root" 0 3 1
    (fun i => toString i) (by decide)

theorem TaskStatus.ofValue?_value (s : TaskStatus) :
    TaskStatus.ofValue? s.value = some s := by
  cases s <;> rfl

mutual

theorem Task.from_dict_to_dict (fresh : String) (now : Nat) (t : Task) :
    Task.from_dict fresh now t.to_dict = Except.ok t := by
  cases t with
  | mk i n d s p subs c u comp md =>
      have hsubs := from_dict_to_dict_list fresh now subs
      simp [Task.to_dict, Task.from_dict, TaskStatus.ofValue?_value, hsubs]

theorem from_dict_to_dict_list (fresh : String) (now : Nat) (ts : List Task) :
    from_dict_list fresh now (to_dict_list ts) = Except.ok ts := by
  cases ts with
  | nil => simp [to_dict_list, from_dict_list, pure, Except.pure]
  | cons t rest =>
      have h1 := Task.from_dict_to_dict fresh now t
      have h2 := from_dict_to_dict_list fresh now rest
      simp [to_dict_list, from_dict_list, h1, h2, bind, Except.bind]
      rfl

end

/-- **C2** (confirmed).  Serialization round-trip: `from_dict ∘ to_dict`
reproduces the task tree exactly — id, name, description, status,
`created_at`, `updated_at`, `completed_at`, metadata, `parent_id`, and
recursively identical children in the same order (full structural
equality), for any choice of the deserializer's default id and
timestamp. -/
theorem claim2_round_trip (fresh : String) (now : Nat) (t : Task) :
    Task.from_dict fresh now t.to_dict = Except.ok t :=
  Task.from_dict_to_dict fresh now t

mutual

theorem Task.from_dict_isOk (fresh : String) (now : Nat) (r : TaskRecord) :
    (Task.from_dict fresh now r).isOk = r.statuses_valid := by
  cases r with
  | mk i n d st p subs c u comp md =>
      have hsubs := from_dict_list_isOk fresh now subs
      cases hv : TaskStatus.ofValue? (st.getD "pending") with
      | none =>
          simp [Task.from_dict, TaskRecord.statuses_valid, hv, Except.isOk, Except.toBool]
      | some status =>
          cases hl : from_dict_list fresh now subs with
          | ok children =>
              rw [hl] at hsubs
              simp [Task.from_dict, TaskRecord.statuses_valid, hv, hl,
                Except.isOk, Except.toBool, bind, Except.bind, ← hsubs, pure, Except.pure]
          | error e =>
              rw [hl] at hsubs
              simp [Task.from_dict, TaskRecord.statuses_valid, hv, hl,
                Except.isOk, Except.toBool, bind, Except.bind, ← hsubs]

theorem from_dict_list_isOk (fresh : String) (now : Nat)
    (rs : List TaskRecord) :
    (from_dict_list fresh now rs).isOk = statuses_valid_list rs := by
  cases rs with
  | nil =>
      simp [from_dict_list, statuses_valid_list, pure, Except.pure, Except.isOk, Except.toBool]
  | cons r rest =>
      have h1 := Task.from_dict_isOk fresh now r
      have h2 := from_dict_list_isOk fresh now rest
      cases hr : Task.from_dict fresh now r with
      | error e =>
          rw [hr] at h1
          simp [from_dict_list, hr, bind, Except.bind, Except.isOk, Except.toBool,
            statuses_valid_list, ← h1]
      | ok t =>
          rw [hr] at h1
          cases hl : from_dict_list fresh now rest with
          | error e =>
              rw [hl] at h2
              simp [from_dict_list, hr, hl, bind, Except.bind, Except.isOk, Except.toBool,
                statuses_valid_list, ← h1, ← h2]
          | ok ts =>
              rw [hl] at h2
              simp [from_dict_list, hr, hl, bind, Except.bind, Except.isOk, Except.toBool,
                statuses_valid_list, ← h1, ← h2, pure, Except.pure]

end

/-- **C9** (confirmed).  `from_dict` fails exactly when some `"status"`
field in the record tree holds a string outside the six enum values
(a missing status defaults to `"pending"`, which is valid); every other
missing field is silently replaced by a default — the all-fields-missing
record deserializes to a task with the freshly generated id, empty name
and description, status PENDING, current-time timestamps, null
`completed_at`, and empty metadata and subtasks. -/
theorem claim9_from_dict_errors (fresh : String) (now : Nat) :
    (∀ (r : TaskRecord),
        (Task.from_dict fresh now r).isOk = r.statuses_valid) ∧
    Task.from_dict fresh now emptyRecord =
      Except.ok
        (Task.mk fresh "" "" TaskStatus.pending none [] now now none []) := by
  constructor
  · exact Task.from_dict_isOk fresh now
  · simp [Task.from_dict, from_dict_list, emptyRecord, TaskStatus.ofValue?,
      bind, Except.bind, pure, Except.pure]

mutual

/-- After execution a task's status is COMPLETED or FAILED according to
the returned boolean, and its id is unchanged. -/
theorem execute_task_status_id (leaf : LeafExec) (now : Nat) (t : Task)
    (mem : MemoryManager) :
    (ExecutionEngine.execute_task leaf now t mem).2.1.status =
      (if (ExecutionEngine.execute_task leaf now t mem).1 then
        TaskStatus.completed
      else TaskStatus.failed) ∧
    (ExecutionEngine.execute_task leaf now t mem).2.1.id = t.id := by
  rw [ExecutionEngine.execute_task]
  split
  · -- children branch
    constructor
    · by_cases hall :
        (execute_subtasks leaf now
          ((t.update_status TaskStatus.in_progress now).subtasks) mem).1 <;>
        simp_all [Task.status_update_status]
    · simp [Task.id_update_status, Task.id_withSubtasks]
  · -- leaf branch
    split
    · constructor
      · simp [Task.status_update_status]
      · simp [Task.id_update_status]
    · exact ⟨by simp [Task.status_withMetadata, Task.status_update_status],
        by simp [Task.id_withMetadata, Task.id_update_status]⟩

/-- The child loop: all children are executed; the returned flag is the
AND over the children; each executed child ends COMPLETED or FAILED;
ids (hence order and count) are preserved. -/
theorem execute_subtasks_spec (leaf : LeafExec) (now : Nat) (ts : List Task)
    (mem : MemoryManager) :
    (execute_subtasks leaf now ts mem).2.1.length = ts.length ∧
    ((execute_subtasks leaf now ts mem).1 = true ↔
      ∀ c ∈ (execute_subtasks leaf now ts mem).2.1,
        c.status = TaskStatus.completed) ∧
    (∀ c ∈ (execute_subtasks leaf now ts mem).2.1,
      c.status = TaskStatus.completed ∨ c.status = TaskStatus.failed) ∧
    (execute_subtasks leaf now ts mem).2.1.map Task.id = ts.map Task.id := by
  cases ts with
  | nil => simp [execute_subtasks]
  | cons s rest =>
      have hhead := execute_task_status_id leaf now s mem
      have hrest := execute_subtasks_spec leaf now rest
        (ExecutionEngine.execute_task leaf now s mem).2.2
      rw [execute_subtasks]
      refine ⟨by simp [hrest.1], ?_, ?_, by simp [hhead.2, hrest.2.2.2]⟩
      · constructor
        · intro hand c hc
          rcases Bool.and_eq_true_iff.mp hand with ⟨h1, h2⟩
          rcases List.mem_cons.mp hc with hc | hc
          · subst hc
            rw [hhead.1, h1]
            simp
          · exact (hrest.2.1.mp h2) c hc
        · intro hall
          have hhc := hall _ (List.mem_cons_self _ _)
          have h1 : (ExecutionEngine.execute_task leaf now s mem).1 = true := by
            by_contra hfalse
            rw [Bool.not_eq_true] at hfalse
            rw [hhead.1, hfalse] at hhc
            simp at hhc
          have h2 := hrest.2.1.mpr (fun c hc => hall c (List.mem_cons_of_mem _ hc))
          simp [h1, h2]
      · intro c hc
        rcases List.mem_cons.mp hc with hc | hc
        · subst hc
          rw [hhead.1]
          by_cases hb : (ExecutionEngine.execute_task leaf now s mem).1 <;>
            simp [hb]
        · exact hrest.2.2.1 c hc

end

/-- **C1** (confirmed).  For a task with children, `execute_task`
executes every child in insertion order (the result holds one executed
child per input child, ids in the same order, and each child ends in a
terminal status even when an earlier sibling failed — no
short-circuiting); the returned boolean is true iff all children ended
COMPLETED, and the parent's final status is COMPLETED iff that boolean
is true, FAILED otherwise. -/
theorem claim1_children_aggregation (leaf : LeafExec) (now : Nat) (t : Task)
    (mem : MemoryManager) (h : t.subtasks ≠ []) :
    ((ExecutionEngine.execute_task leaf now t mem).1 = true ↔
      ∀ c ∈ (ExecutionEngine.execute_task leaf now t mem).2.1.subtasks,
        c.status = TaskStatus.completed) ∧
    ((ExecutionEngine.execute_task leaf now t mem).2.1.status =
        TaskStatus.completed ↔
      (ExecutionEngine.execute_task leaf now t mem).1 = true) ∧
    ((ExecutionEngine.execute_task leaf now t mem).1 = false →
      (ExecutionEngine.execute_task leaf now t mem).2.1.status =
        TaskStatus.failed) ∧
    (ExecutionEngine.execute_task leaf now t mem).2.1.subtasks.length =
      t.subtasks.length ∧
    (ExecutionEngine.execute_task leaf now t mem).2.1.subtasks.map Task.id =
      t.subtasks.map Task.id ∧
    (∀ c ∈ (ExecutionEngine.execute_task leaf now t mem).2.1.subtasks,
      c.status = TaskStatus.completed ∨ c.status = TaskStatus.failed) := by
  have hsub : (t.update_status TaskStatus.in_progress now).subtasks =
      t.subtasks := t.subtasks_update_status _ _
  have hspec := execute_subtasks_spec leaf now
    ((t.update_status TaskStatus.in_progress now).subtasks) mem
  rw [ExecutionEngine.execute_task]
  split
  case h_2 hnil =>
    rw [hsub] at hnil
    exact absurd hnil h
  case h_1 sub0 rest hcons =>
    rw [hcons] at hspec
    have htsub : t.subtasks = sub0 :: rest := by rw [← hsub, hcons]
    simp only [Task.subtasks_update_status, Task.subtasks_withSubtasks,
      Task.status_update_status]
    rw [htsub]
    constructor
    · -- boolean ↔ all children completed
      exact hspec.2.1
    constructor
    · -- parent status ↔ boolean
      by_cases hall : (execute_subtasks leaf now (sub0 :: rest) mem).1 <;>
        simp [hall]
    constructor
    · intro hfail
      simp [hfail]
    exact ⟨hspec.1, hspec.2.2.2, hspec.2.2.1⟩

/-- Witness for C1: a parent with a failing leaf then a succeeding leaf;
the parent fails, yet both children were executed (both end terminal,
the second COMPLETED). -/
theorem claim1_children_aggregation_witness :
    ((ExecutionEngine.execute_task
        (fun t m => (m, Except.ok (t.name != "A"))) 1
        (Task.mk "p" "P" "" TaskStatus.pending none
          [Task.mk "a" "A" "" TaskStatus.pending (some "p") [] 0 0 none [],
           Task.mk "b" "B" "" TaskStatus.pending (some "p") [] 0 0 none []]
          0 0 none [])
        MemoryManager.init).1 = true ↔
      ∀ c ∈ (ExecutionEngine.execute_task
          (fun t m => (m, Except.ok (t.name != "A"))) 1
          (Task.mk "p" "P" "" TaskStatus.pending none
            [Task.mk "a" "A" "" TaskStatus.pending (some "p") [] 0 0 none [],
             Task.mk "b" "B" "" TaskStatus.pending (some "p") [] 0 0 none []]
            0 0 none [])
          MemoryManager.init).2.1.subtasks,
        c.status = TaskStatus.completed) ∧
    ((ExecutionEngine.execute_task
        (fun t m => (m, Except.ok (t.name != "A"))) 1
        (Task.mk "p" "P" "" TaskStatus.pending none
          [Task.mk "a" "A" "" TaskStatus.pending (some "p") [] 0 0 none [],
           Task.mk "b" "B" "" TaskStatus.pending (some "p") [] 0 0 none []]
          0 0 none [])
        MemoryManager.init).2.1.subtasks.map Task.id = ["a", "b"]) :=
  ⟨(claim1_children_aggregation (fun t m => (m, Except.ok (t.name != "A"))) 1
      (Task.mk "p" "P" "" TaskStatus.pending none
        [Task.mk "a" "A" "" TaskStatus.pending (some "p") [] 0 0 none [],
         Task.mk "b" "B" "" TaskStatus.pending (some "p") [] 0 0 none []]
        0 0 none [])
      MemoryManager.init (by simp [Task.subtasks])).1,
   (claim1_children_aggregation (fun t m => (m, Except.ok (t.name != "A"))) 1
      (Task.mk "p" "P" "" TaskStatus.pending none
        [Task.mk "a" "A" "" TaskStatus.pending (some "p") [] 0 0 none [],
         Task.mk "b" "B" "" TaskStatus.pending (some "p") [] 0 0 none []]
        0 0 none [])
      MemoryManager.init (by simp [Task.subtasks])).2.2.2.2.1⟩

/-- **C3** (confirmed).  For a leaf task, an error raised by the leaf
step-execution procedure is caught inside `execute_task`: it returns
`false`, the task is FAILED, the error text is stored under metadata key
`"error"`, and the task snapshot is appended to the history.  The
exception is not propagated — `execute_task` is a total function
returning a triple, never an exception. -/
theorem claim3_leaf_error_absorbed (leaf : LeafExec) (now : Nat) (t : Task)
    (mem mem2 : MemoryManager) (e : String)
    (hnil : t.subtasks = [])
    (hrun : leaf (t.update_status TaskStatus.in_progress now) mem =
      (mem2, Except.error e)) :
    (ExecutionEngine.execute_task leaf now t mem).1 = false ∧
    (ExecutionEngine.execute_task leaf now t mem).2.1.status =
      TaskStatus.failed ∧
    dictLookup (ExecutionEngine.execute_task leaf now t mem).2.1.metadata
      "error" = some (Value.str e) ∧
    (ExecutionEngine.execute_task leaf now t mem).2.2.task_history =
      mem2.task_history ++
        [(ExecutionEngine.execute_task leaf now t mem).2.1.to_dict] := by
  have hsub : (t.update_status TaskStatus.in_progress now).subtasks = [] := by
    rw [Task.subtasks_update_status, hnil]
  rw [ExecutionEngine.execute_task]
  split
  case h_1 sub0 rest hcons =>
    rw [hsub] at hcons
    cases hcons
  case h_2 _ =>
    rw [hrun]
    refine ⟨rfl, ?_, ?_, rfl⟩
    · simp [Task.status_withMetadata, Task.status_update_status]
    · simp [Task.metadata_withMetadata, dictLookup_insert_self]

/-- Witness for C3: a single leaf whose step procedure raises `"boom"`. -/
theorem claim3_leaf_error_absorbed_witness :
    (ExecutionEngine.execute_task (fun _ m => (m, Except.error "boom")) 1
        (Task.mk "a" "A" "" TaskStatus.pending none [] 0 0 none [])
        MemoryManager.init).1 = false ∧
    (ExecutionEngine.execute_task (fun _ m => (m, Except.error "boom")) 1
        (Task.mk "a" "A" "" TaskStatus.pending none [] 0 0 none [])
        MemoryManager.init).2.1.status = TaskStatus.failed ∧
    dictLookup (ExecutionEngine.execute_task
        (fun _ m => (m, Except.error "boom")) 1
        (Task.mk "a" "A" "" TaskStatus.pending none [] 0 0 none [])
        MemoryManager.init).2.1.metadata "error" =
      some (Value.str "boom") ∧
    (ExecutionEngine.execute_task (fun _ m => (m, Except.error "boom")) 1
        (Task.mk "a" "A" "" TaskStatus.pending none [] 0 0 none [])
        MemoryManager.init).2.2.task_history =
      MemoryManager.init.task_history ++
        [(ExecutionEngine.execute_task (fun _ m => (m, Except.error "boom")) 1
            (Task.mk "a" "A" "" TaskStatus.pending none [] 0 0 none [])
            MemoryManager.init).2.1.to_dict] :=
  claim3_leaf_error_absorbed (fun _ m => (m, Except.error "boom")) 1
    (Task.mk "a" "A" "" TaskStatus.pending none [] 0 0 none [])
    MemoryManager.init MemoryManager.init "boom" rfl rfl

theorem TaskRecord.subtasks_to_dict (t : Task) :
    t.to_dict.subtasks = to_dict_list t.subtasks := by
  cases t <;> rfl

mutual

/-- Every history entry added by `execute_task` is the snapshot of a
task that had no subtasks when it was executed, provided the leaf
procedure itself leaves the history alone (in the source it only calls
`remember`). -/
theorem execute_task_history (leaf : LeafExec) (now : Nat) (t : Task)
    (mem : MemoryManager)
    (hleaf : ∀ (t' : Task) (m' : MemoryManager),
      ((leaf t' m').1).task_history = m'.task_history) :
    ∃ new, (ExecutionEngine.execute_task leaf now t mem).2.2.task_history =
        mem.task_history ++ new ∧
      ∀ r ∈ new, r.subtasks = ([] : List TaskRecord) := by
  rw [ExecutionEngine.execute_task]
  split
  case h_1 sub0 rest hcons =>
    exact execute_subtasks_history leaf now (sub0 :: rest) mem hleaf
  case h_2 hnil =>
    rcases hrun : leaf (t.update_status TaskStatus.in_progress now) mem with
      ⟨mem2, res⟩
    have hmem2 : mem2.task_history = mem.task_history := by
      have := hleaf (t.update_status TaskStatus.in_progress now) mem
      rw [hrun] at this
      exact this
    have hnil2 : t.subtasks = [] := by
      rw [← Task.subtasks_update_status t TaskStatus.in_progress now]
      exact hnil
    cases res with
    | ok success =>
        refine ⟨[((t.update_status TaskStatus.in_progress now).update_status
            (if success then TaskStatus.completed else TaskStatus.failed)
            now).to_dict], ?_, ?_⟩
        · simp [MemoryManager.add_task_to_history, hmem2]
        · intro r hr
          rw [List.mem_singleton] at hr
          subst hr
          rw [TaskRecord.subtasks_to_dict, Task.subtasks_update_status,
            Task.subtasks_update_status, hnil2]
          rfl
    | error e =>
        refine ⟨[(((t.update_status TaskStatus.in_progress now).update_status
            TaskStatus.failed now).withMetadata
            (dictInsert ((t.update_status TaskStatus.in_progress
              now).update_status TaskStatus.failed now).metadata "error"
              (Value.str e))).to_dict], ?_, ?_⟩
        · simp [MemoryManager.add_task_to_history, hmem2]
        · intro r hr
          rw [List.mem_singleton] at hr
          subst hr
          rw [TaskRecord.subtasks_to_dict, Task.subtasks_withMetadata,
            Task.subtasks_update_status, Task.subtasks_update_status, hnil2]
          rfl
termination_by sizeOf t
decreasing_by
  rename_i sub0 rest hcons
  rw [← hcons, Task.subtasks_update_status]
  exact Task.sizeOf_subtasks_lt t

theorem execute_subtasks_history (leaf : LeafExec) (now : Nat)
    (ts : List Task) (mem : MemoryManager)
    (hleaf : ∀ (t' : Task) (m' : MemoryManager),
      ((leaf t' m').1).task_history = m'.task_history) :
    ∃ new, (execute_subtasks leaf now ts mem).2.2.task_history =
        mem.task_history ++ new ∧
      ∀ r ∈ new, r.subtasks = ([] : List TaskRecord) := by
  cases ts with
  | nil => exact ⟨[], by simp [execute_subtasks], by simp⟩
  | cons s rest =>
      obtain ⟨new1, h1, p1⟩ := execute_task_history leaf now s mem hleaf
      obtain ⟨new2, h2, p2⟩ := execute_subtasks_history leaf now rest
        (ExecutionEngine.execute_task leaf now s mem).2.2 hleaf
      refine ⟨new1 ++ new2, ?_, ?_⟩
      · rw [execute_subtasks]
        simp only []
        rw [h2, h1, List.append_assoc]
      · intro r hr
        rcases List.mem_append.mp hr with hr | hr
        · exact p1 r hr
        · exact p2 r hr
termination_by sizeOf ts
decreasing_by
  all_goals simp
  all_goals omega

end

/-- **C10** (confirmed).  `execute_task` appends history snapshots only
in the leaf branch: whatever the tree shape, every history entry it adds
is the serialized snapshot of a task that had no subtasks at the moment
it was executed — in particular a parent with children is never itself
appended (its snapshot would carry its non-empty children list).  The
hypothesis states that the leaf step procedure does not touch the
history, as in the source where it only calls `remember`. -/
theorem claim10_history_leaves_only (leaf : LeafExec) (now : Nat) (t : Task)
    (mem : MemoryManager)
    (hleaf : ∀ (t' : Task) (m' : MemoryManager),
      ((leaf t' m').1).task_history = m'.task_history) :
    ∃ new, (ExecutionEngine.execute_task leaf now t mem).2.2.task_history =
        mem.task_history ++ new ∧
      ∀ r ∈ new, r.subtasks = ([] : List TaskRecord) :=
  execute_task_history leaf now t mem hleaf

/-- Witness for C10 on a two-level tree with an always-succeeding leaf
procedure that leaves the history unchanged. -/
theorem claim10_history_leaves_only_witness :
    ∃ new, (ExecutionEngine.execute_task (fun _ m => (m, Except.ok true)) 1
        (Task.mk "p" "P" "" TaskStatus.pending none
          [Task.mk "a" "A" "" TaskStatus.pending (some "p") [] 0 0 none [],
           Task.mk "b" "B" "" TaskStatus.pending (some "p") [] 0 0 none []]
          0 0 none [])
        MemoryManager.init).2.2.task_history =
      MemoryManager.init.task_history ++ new ∧
      ∀ r ∈ new, r.subtasks = ([] : List TaskRecord) :=
  claim10_history_leaves_only (fun _ m => (m, Except.ok true)) 1
    (Task.mk "p" "P" "" TaskStatus.pending none
      [Task.mk "a" "A" "" TaskStatus.pending (some "p") [] 0 0 none [],
       Task.mk "b" "B" "" TaskStatus.pending (some "p") [] 0 0 none []]
      0 0 none [])
    MemoryManager.init (fun _ _ => rfl)

/-- Peeling the last iteration off a prefix of the step loop. -/
theorem execute_steps_from_take (registry : ToolRegistry) :
    ∀ (steps : List Step) (i i0 : Nat) (mem : MemoryManager)
      (hi : i < steps.length),
      execute_steps_from registry i0 (steps.take (i + 1)) mem =
        run_step registry (execute_steps_from registry i0 (steps.take i) mem)
          (i0 + i) (steps.get ⟨i, hi⟩) := by
  intro steps
  induction steps with
  | nil =>
      intro i i0 mem hi
      simp at hi
  | cons s rest ih =>
      intro i i0 mem hi
      cases i with
      | zero => simp [execute_steps_from]
      | succ j =>
          have hj : j < rest.length := by simpa using hi
          simp only [List.take_succ_cons, execute_steps_from, List.get_cons_succ]
          rw [ih j (i0 + 1) (run_step registry mem i0 s) hj]
          have harith : i0 + 1 + j = i0 + (j + 1) := by omega
          rw [harith]

/-- **C8** (confirmed).  In the step loop of the leaf execution
procedure, a step whose tool name is registered (and non-empty, Python
truthiness) has the tool invoked on the step's parameters and the result
remembered under `step_<i>_result` for the step's position `i`; a step
whose tool name is not registered leaves the memory unchanged (warning
logged, step skipped); and the procedure's success is decided solely by
the evaluation reply, so a task with skipped steps may still end
COMPLETED. -/
theorem claim8_step_loop (registry : ToolRegistry) (steps : List Step)
    (mem : MemoryManager) (i : Nat) (hi : i < steps.length) :
    (∀ tn f, (steps.get ⟨i, hi⟩).tool = some tn → tn ≠ "" →
      lookupTool registry tn = some f →
      execute_steps_from registry 0 (steps.take (i + 1)) mem =
        (execute_steps_from registry 0 (steps.take i) mem).remember
          (step_key i) (f (steps.get ⟨i, hi⟩).parameters) false) ∧
    (∀ tn, (steps.get ⟨i, hi⟩).tool = some tn →
      lookupTool registry tn = none →
      execute_steps_from registry 0 (steps.take (i + 1)) mem =
        execute_steps_from registry 0 (steps.take i) mem) ∧
    (∀ ans, (ExecutionEngine.execute_with_llm registry ⟨some steps, ans⟩
      mem).1 = answerYes ans) := by
  have hpeel := execute_steps_from_take registry steps i 0 mem hi
  rw [Nat.zero_add] at hpeel
  refine ⟨?_, ?_, fun ans => rfl⟩
  · intro tn f htool hne hreg
    rw [hpeel, run_step, htool]
    simp [hne, hreg]
  · intro tn htool hreg
    rw [hpeel, run_step, htool]
    by_cases hne : tn = "" <;> simp [hne, hreg]

/-- Witness for C8: two steps, the first using a registered tool, the
second naming a missing one. -/
theorem claim8_step_loop_witness :
    execute_steps_from [("t1", fun _ => Value.num 42)] 0
        (List.take (0 + 1) ([⟨some "s1", some "t1", []⟩,
          ⟨some "s2", some "missing", []⟩] : List Step))
        MemoryManager.init =
      (execute_steps_from [("t1", fun _ => Value.num 42)] 0
        (List.take 0 ([⟨some "s1", some "t1", []⟩,
          ⟨some "s2", some "missing", []⟩] : List Step))
        MemoryManager.init).remember (step_key 0)
        ((fun _ : Dict Value => Value.num 42) ([] : Dict Value)) false ∧
    execute_steps_from [("t1", fun _ => Value.num 42)] 0
        (List.take (1 + 1) ([⟨some "s1", some "t1", []⟩,
          ⟨some "s2", some "missing", []⟩] : List Step))
        MemoryManager.init =
      execute_steps_from [("t1", fun _ => Value.num 42)] 0
        (List.take 1 ([⟨some "s1", some "t1", []⟩,
          ⟨some "s2", some "missing", []⟩] : List Step))
        MemoryManager.init :=
  ⟨(claim8_step_loop [("t1", fun _ => Value.num 42)]
      [⟨some "s1", some "t1", []⟩, ⟨some "s2", some "missing", []⟩]
      MemoryManager.init 0 (by decide)).1 "t1" (fun _ => Value.num 42)
      rfl (by decide) rfl,
   (claim8_step_loop [("t1", fun _ => Value.num 42)]
      [⟨some "s1", some "t1", []⟩, ⟨some "s2", some "missing", []⟩]
      MemoryManager.init 1 (by decide)).2.1 "missing" rfl rfl⟩

end Arna
